import Mathlib

/-!
# go-ipfs: DHT core API (`core/coreapi/dht.go`) and the write-through block service test

A shallow embedding of `FindPeer`, `FindProviders`, `Provide`, `provideKeys`,
`provideKeysRec` and of `PutCountingBlockstore.Put`, with the properties of the
specification proved over it.

Conventions of the embedding.

* Go `error` values are identified with their message (`err.Error()`), a `String`;
  a Go `error` result is `Option Err` (`none` is `nil`), a `(value, error)` result
  is `Except Err value`.
* Every call a function makes on an external collaborator (routing, peer host,
  path resolver, block store, DAG service, query-event bus, `go` statements) is
  appended to a log of `Call`s, so that "is never consulted" is a statement on the log.
* Content identifiers, paths, peer identities and addresses are uninterpreted
  comparable keys, here natural numbers.
-/

namespace GoIpfs

/-! ## Data model -/

/-- Go `error`, identified with its message. -/
abbrev Err := String

/-- Content identifier (`*cid.Cid`): a comparable key. -/
abbrev Cid := Nat

/-- A `coreiface.Path`. -/
abbrev Path := Nat

/-- A `peer.ID`. -/
abbrev PeerID := Nat

/-- A `ma.Multiaddr`. -/
abbrev Multiaddr := Nat

/-- A `pstore.PeerInfo`: peer identity plus known addresses. -/
structure PeerInfo where
  ID : PeerID
  Addrs : List Multiaddr
deriving DecidableEq

/-- The kinds of `notif.QueryEvent` that `dht.go` produces or filters on. -/
inductive QueryEventType
  | FinalPeer
  | QueryError
  | Provider
deriving DecidableEq

/-- A `notif.QueryEvent`; `Kind` is its Go field `Type`. -/
structure QueryEvent where
  Kind : QueryEventType
  Responses : List PeerInfo
  Extra : String
deriving DecidableEq

/-- One call made on an external collaborator. -/
inductive Call
  | conns
  | resolvePath (p : Path)
  | blockstoreHas (c : Cid)
  | getLinks (c : Cid)
  | routingProvide (c : Cid) (announce : Bool)
  | registerForQueryEvents
  | goConsumer
  | goDriver
  | routingFindPeer (p : PeerID)
  | findProvidersAsync (c : Cid) (count : Int)
  | publishQueryEvent (ev : QueryEvent)
deriving DecidableEq

/-- The identifiers passed to the routing announce operation, in call order. -/
def announced : List Call → List Cid
  | [] => []
  | Call.routingProvide c _ :: tr => c :: announced tr
  | _ :: tr => announced tr

/-- The announce-to-network flags of the announce calls, in call order. -/
def announceFlags : List Call → List Bool
  | [] => []
  | Call.routingProvide _ b :: tr => b :: announceFlags tr
  | _ :: tr => announceFlags tr

/-- The identifiers whose children were looked up in the DAG service, in call order. -/
def lookups : List Call → List Cid
  | [] => []
  | Call.getLinks c :: tr => c :: lookups tr
  | _ :: tr => lookups tr

/-- The events handed to `notif.PublishQueryEvent`, in call order. -/
def published : List Call → List QueryEvent
  | [] => []
  | Call.publishQueryEvent ev :: tr => ev :: published tr
  | _ :: tr => published tr

/-- What a reader that keeps receiving gets from a channel: the values sent, in
order, and whether the channel was closed after them (`false`: after the last
value the reader waits for ever). -/
structure Stream (α : Type) where
  items : List α
  closed : Bool
deriving DecidableEq

/-- The routing capability (`routing.IpfsRouting`). `isDHT` is the outcome of the
type assertion `.(*ipdht.IpfsDHT)`. The answer of `Provide` may depend on the
identifiers announced before it on this handle. `FindProvidersAsync` gives the
channel of providers as the driver reads it. -/
structure IpfsRouting where
  isDHT : Bool
  FindPeer : PeerID → Except Err PeerInfo
  FindProvidersAsync : Cid → Int → Stream PeerInfo
  Provide : List Cid → Cid → Bool → Option Err

/-- The DAG service seen through `dag.GetLinksDirect`: a finite store that
answers a child lookup with the links of the node or with an error. -/
structure DAGService where
  nodes : List (Cid × Except Err (List Cid))

/-- Child lookup: the first entry of the store for `c`; an identifier the store
does not hold is not found. -/
def DAGService.GetLinks (d : DAGService) (c : Cid) : Except Err (List Cid) :=
  match d.nodes.find? (fun e => e.1 == c) with
  | some e => e.2
  | none => Except.error "merkledag: not found"

/-- The node behind a `CoreAPI` (`api.node`), with the path resolver of the API
and the text form of identifiers (`c.String()`, used by `%s`). -/
structure Node where
  Routing : Option IpfsRouting
  Conns : List Nat
  ResolvePath : Path → Except Err Cid
  BlockstoreHas : Cid → Except Err Bool
  DAG : DAGService
  cidString : Cid → String

/-! ## `cid.Set` -/

/-- A `cid.Set`: its members, each once, in insertion order. -/
abbrev CidSet := List Cid

/-- The `cid.NewSet()` constructor: the empty set. -/
def NewSet : CidSet := []

/-- Membership test `s.Has(c)`. -/
def CidSet.Has (s : CidSet) (c : Cid) : Bool := decide (c ∈ s)

/-- Insertion `s.Add(c)`: adding a member again changes nothing. -/
def CidSet.Add (s : CidSet) (c : Cid) : CidSet :=
  if CidSet.Has s c then s else s ++ [c]

/-- The visitor `s.Visit(c)`: adds `c` and answers `true` when `c` was not a member. -/
def CidSet.Visit (s : CidSet) (c : Cid) : Bool × CidSet :=
  if !CidSet.Has s c then (true, CidSet.Add s c) else (false, s)

/-- The enumeration `s.Keys()`. The set is a Go map, whose iteration order is not
fixed: `order` is the order this run enumerates in (a permutation of the members). -/
def CidSet.Keys (order : List Cid → List Cid) (s : CidSet) : List Cid := order s

/-! ## Graph traversal -/

/-- Number of links a child lookup returned (zero for a failed lookup). -/
def linkCount : Except Err (List Cid) → Nat
  | Except.ok links => links.length
  | Except.error _ => 0

/-- Number of loop iterations that suffice for any traversal of the store. -/
def traversalFuel (d : DAGService) : Nat :=
  (d.nodes.map (fun e => linkCount e.2)).sum + 2

/-- Modelled from the spec: the worker loop of `dag.EnumerateChildrenAsync`
(package `merkledag`, not among the sources). Section 2 and the design notes
describe it: fetch the children of the next identifier of the frontier, feed the
identifier to the visited-set, and feed the children of a newly seen identifier
back into the frontier; a child-lookup error aborts the traversal.
The result is `none` when the iteration budget is used up. -/
def enumerateLoop (d : DAGService) :
    Nat → List Cid → CidSet → List Call → Option (List Call × Except Err CidSet)
  | 0, _, _, _ => none
  | _ + 1, [], seen, tr => some (tr, Except.ok seen)
  | fuel + 1, c :: todo, seen, tr =>
    match d.GetLinks c with
    | Except.error err => some (tr ++ [Call.getLinks c], Except.error err)
    | Except.ok links =>
      match CidSet.Visit seen c with
      | (true, seen1) => enumerateLoop d fuel (todo ++ links) seen1 (tr ++ [Call.getLinks c])
      | (false, seen1) => enumerateLoop d fuel todo seen1 (tr ++ [Call.getLinks c])

/-- Modelled from the spec: `dag.EnumerateChildrenAsync(ctx, dag.GetLinksDirect(dserv), c, kset.Visit)`
(package `merkledag`, not among the sources): the traversal from the root `c`
that collects every reachable identifier, root included, into `kset`. The
result is the calls made and the returned error or, on success, the set.
Cancellation of the context during the traversal is not modelled. -/
def EnumerateChildrenAsync (d : DAGService) (c : Cid) (kset : CidSet) :
    List Call × Except Err CidSet :=
  match enumerateLoop d (traversalFuel d) [c] kset [] with
  | some res => res
  | none => ([], Except.error "traversal did not finish")

/-! ## `Provide` -/

/-- The result of `caopts.DhtProvideOptions`. -/
structure DhtProvideSettings where
  Recursive : Bool
deriving DecidableEq

/-- Source function `provideKeys`: announce each identifier, stop at the first failure. -/
def provideKeys (r : IpfsRouting) : List Cid → List Call → List Call × Option Err
  | [], tr => (tr, none)
  | c :: cids, tr =>
    match r.Provide (announced tr) c true with
    | some err => (tr ++ [Call.routingProvide c true], some err)
    | none => provideKeys r cids (tr ++ [Call.routingProvide c true])

/-- The inner loop of `provideKeysRec`, `for _, k := range kset.Keys()`: skip what
is already in `provided`, announce, stop at the first failure, else record. -/
def announceKeys (r : IpfsRouting) :
    List Cid → CidSet → List Call → List Call × CidSet × Option Err
  | [], provided, tr => (tr, provided, none)
  | k :: ks, provided, tr =>
    if CidSet.Has provided k then announceKeys r ks provided tr
    else
      match r.Provide (announced tr) k true with
      | some err => (tr ++ [Call.routingProvide k true], provided, some err)
      | none =>
        announceKeys r ks (CidSet.Add provided k) (tr ++ [Call.routingProvide k true])

/-- The outer loop of `provideKeysRec`, `for _, c := range cids`: traverse from
the root into a fresh set, return a traversal error, else announce its keys.
The result carries the final `provided` set next to the log and the error. -/
def provideKeysRecLoop (order : List Cid → List Cid) (r : IpfsRouting) (dserv : DAGService) :
    List Cid → CidSet → List Call → List Call × CidSet × Option Err
  | [], provided, tr => (tr, provided, none)
  | c :: cids, provided, tr =>
    match EnumerateChildrenAsync dserv c NewSet with
    | (calls, Except.error err) => (tr ++ calls, provided, some err)
    | (calls, Except.ok kset) =>
      match announceKeys r (CidSet.Keys order kset) provided (tr ++ calls) with
      | (tr2, provided2, some err) => (tr2, provided2, some err)
      | (tr2, provided2, none) => provideKeysRecLoop order r dserv cids provided2 tr2

/-- Source function `provideKeysRec`: the log of calls and the returned error. -/
def provideKeysRec (order : List Cid → List Cid) (r : IpfsRouting) (dserv : DAGService)
    (cids : List Cid) (tr : List Call) : List Call × Option Err :=
  match provideKeysRecLoop order r dserv cids NewSet tr with
  | (tr1, _, err) => (tr1, err)

/-- Source method `DhtAPI.Provide`. `opts` is the result of
`caopts.DhtProvideOptions(opts...)`; the result is the log of calls made and the
returned error. -/
def Provide (order : List Cid → List Cid) (node : Node) (path : Path)
    (opts : Except Err DhtProvideSettings) : List Call × Option Err :=
  match opts with
  | Except.error err => ([], some err)
  | Except.ok settings =>
    match node.Routing with
    | none => ([], some "cannot provide in offline mode")
    | some r =>
      if node.Conns.length = 0 then
        ([Call.conns], some "cannot provide, no connected peers")
      else
        match node.ResolvePath path with
        | Except.error err => ([Call.conns, Call.resolvePath path], some err)
        | Except.ok c =>
          match node.BlockstoreHas c with
          | Except.error err =>
            ([Call.conns, Call.resolvePath path, Call.blockstoreHas c], some err)
          | Except.ok has =>
            if !has then
              ([Call.conns, Call.resolvePath path, Call.blockstoreHas c],
                some ("block " ++ node.cidString c ++ " not found locally, cannot provide"))
            else if settings.Recursive then
              provideKeysRec order r node.DAG [c]
                [Call.conns, Call.resolvePath path, Call.blockstoreHas c]
            else
              provideKeys r [c] [Call.conns, Call.resolvePath path, Call.blockstoreHas c]

/-! ## Result streams: `FindPeer` and `FindProviders` -/

/-- The sentinel error `ErrNotDHT`. -/
def ErrNotDHT : Err := "routing service is not a DHT"

/-- A `context.Context`, as far as this file observes it, through the `select`s
that race a channel operation against `<-ctx.Done()`.
`dropped i` tells whether the call number `i` (from 0) of
`notif.PublishQueryEvent` on this context takes the cancellation instead of
handing its event over: every call is a `select` of its own, so after a
cancellation a later event can be handed over although an earlier one was not.
`sends` is the number of sends on the output channel that complete before the
consumer takes the cancellation, after which it returns (`none`: it never does). -/
structure Context where
  dropped : Nat → Bool
  sends : Option Nat

/-- The context is never cancelled: no `select` ever takes `<-ctx.Done()`. -/
def Context.neverCancelled (ctx : Context) : Prop :=
  (∀ i, ctx.dropped i = false) ∧ ctx.sends = none

/-- One `select` between a channel operation and `<-ctx.Done()`: the budget left
when the operation goes through, `none` when the cancellation is taken. -/
def trySend : Option Nat → Option (Option Nat)
  | none => some none
  | some 0 => none
  | some (n + 1) => some (some n)

/-- The events the subscriber receives out of those passed, in this order, to
`notif.PublishQueryEvent` (external package `notifications`) on a context
registered with `notif.RegisterForQueryEvents`; `i` is the number of the first
call. Each call either hands its event to the subscriber or, the context being
cancelled, drops it (spec, section 4.1); the calls are decided one by one. -/
def deliver (dropped : Nat → Bool) : List QueryEvent → Nat → List QueryEvent
  | [], _ => []
  | ev :: evs, i =>
    if dropped i then deliver dropped evs (i + 1)
    else ev :: deliver dropped evs (i + 1)

/-- The inner loop of `sendAddrs` in `FindPeer`, `for _, addr := range response.Addrs`. -/
def sendAddrList : List Multiaddr → Option Nat → List Multiaddr →
    List Multiaddr × Option Nat × Option Err
  | [], budget, out => (out, budget, none)
  | addr :: addrs, budget, out =>
    match trySend budget with
    | none => (out, budget, some "context canceled")
    | some left => sendAddrList addrs left (out ++ [addr])

/-- The closure `sendAddrs` of `FindPeer`. -/
def sendAddrs : List PeerInfo → Option Nat → List Multiaddr →
    List Multiaddr × Option Nat × Option Err
  | [], budget, out => (out, budget, none)
  | response :: responses, budget, out =>
    match sendAddrList response.Addrs budget out with
    | (out1, left, some err) => (out1, left, some err)
    | (out1, left, none) => sendAddrs responses left out1

/-- The consumer task of `FindPeer`: `for event := range events`, forwarding the
addresses of `FinalPeer` events; `defer close(outChan)` closes on every exit. -/
def findPeerConsumer : List QueryEvent → Option Nat → List Multiaddr → Stream Multiaddr
  | [], _, out => { items := out, closed := true }
  | event :: events, budget, out =>
    if event.Kind = QueryEventType.FinalPeer then
      match sendAddrs event.Responses budget out with
      | (out1, _, some _) => { items := out1, closed := true }
      | (out1, left, none) => findPeerConsumer events left out1
    else findPeerConsumer events budget out

/-- The driver task of `FindPeer`: the events it passes to `notif.PublishQueryEvent`. -/
def findPeerDriver (dht : IpfsRouting) (p : PeerID) : List QueryEvent :=
  match dht.FindPeer p with
  | Except.error err =>
    [{ Kind := QueryEventType.QueryError, Responses := [], Extra := err }]
  | Except.ok pi =>
    [{ Kind := QueryEventType.FinalPeer, Responses := [pi], Extra := "" }]

/-- Source method `DhtAPI.FindPeer`: the log of calls made, and the returned
channel (as the caller reads it to its end) or error. The peer lookup is the
plain call of section 6, `Routing.FindPeer(ctx, peerID) -> (PeerInfo, error)`;
events a backend may publish on its own account are not part of it. -/
def FindPeer (node : Node) (ctx : Context) (p : PeerID) :
    List Call × Except Err (Stream Multiaddr) :=
  match node.Routing with
  | none => ([], Except.error ErrNotDHT)
  | some dht =>
    if !dht.isDHT then ([], Except.error ErrNotDHT)
    else
      let events := findPeerDriver dht p
      ([Call.registerForQueryEvents, Call.goConsumer, Call.goDriver, Call.routingFindPeer p]
          ++ events.map Call.publishQueryEvent,
        Except.ok (findPeerConsumer (deliver ctx.dropped events 0) ctx.sends []))

/-- The result of `caopts.DhtFindProvidersOptions`. -/
structure DhtFindProvidersSettings where
  NumProviders : Int
deriving DecidableEq

/-- The closure `sendProviders` of `FindProviders`. -/
def sendProviders : List PeerInfo → Option Nat → List PeerID →
    List PeerID × Option Nat × Option Err
  | [], budget, out => (out, budget, none)
  | response :: responses, budget, out =>
    match trySend budget with
    | none => (out, budget, some "context canceled")
    | some left => sendProviders responses left (out ++ [response.ID])

/-- The consumer task of `FindProviders`: `for event := range events`, forwarding
the peer identities of `Provider` events. `defer close(outChan)` closes the
output when the task returns: on a cancelled send, or when the loop ends, which
it does once the events received are used up and the driver has closed `events`
(`eventsClosed`); otherwise the task waits for ever and the output stays open. -/
def findProvidersConsumer : List QueryEvent → Option Nat → Bool → List PeerID → Stream PeerID
  | [], _, eventsClosed, out => { items := out, closed := eventsClosed }
  | event :: events, budget, eventsClosed, out =>
    if event.Kind = QueryEventType.Provider then
      match sendProviders event.Responses budget out with
      | (out1, _, some _) => { items := out1, closed := true }
      | (out1, left, none) => findProvidersConsumer events left eventsClosed out1
    else findProvidersConsumer events budget eventsClosed out

/-- The driver task of `FindProviders`, `for p := range pchan`: one `Provider`
event per entry of the provider stream. -/
def findProvidersDriver : List PeerInfo → List QueryEvent
  | [] => []
  | np :: pchan =>
    { Kind := QueryEventType.Provider, Responses := [np], Extra := "" } ::
      findProvidersDriver pchan

/-- Source method `DhtAPI.FindProviders`. `opts` is the result of
`caopts.DhtFindProvidersOptions(opts...)`. The driver publishes one event per
entry of `pchan`, cancelled or not, and its `defer close(events)` runs when the
loop over `pchan` ends, that is when the routing capability has closed `pchan`. -/
def FindProviders (node : Node) (ctx : Context) (p : Path)
    (opts : Except Err DhtFindProvidersSettings) : List Call × Except Err (Stream PeerID) :=
  match opts with
  | Except.error err => ([], Except.error err)
  | Except.ok settings =>
    match node.Routing with
    | none => ([], Except.error ErrNotDHT)
    | some dht =>
      if !dht.isDHT then ([], Except.error ErrNotDHT)
      else
        match node.ResolvePath p with
        | Except.error err => ([Call.resolvePath p], Except.error err)
        | Except.ok c =>
          let numProviders := settings.NumProviders
          if numProviders < 1 then
            ([Call.resolvePath p], Except.error "number of providers must be greater than 0")
          else
            let pchan := dht.FindProvidersAsync c numProviders
            let events := findProvidersDriver pchan.items
            ([Call.resolvePath p, Call.registerForQueryEvents,
                Call.findProvidersAsync c numProviders, Call.goConsumer, Call.goDriver]
                ++ events.map Call.publishQueryEvent,
              Except.ok (findProvidersConsumer (deliver ctx.dropped events 0) ctx.sends
                pchan.closed []))

/-! ## The write-through block service and its counting block store -/

/-- A `blocks.Block`. -/
structure Block where
  Cid : Cid
  RawData : List Nat
deriving DecidableEq

/-- The `blockstore.Blockstore` a `PutCountingBlockstore` embeds: the `Put`
calls it has received, and its answer to a `Put` given the earlier ones. -/
structure Blockstore where
  putCalls : List Block
  putResult : List Block → Block → Option Err

/-- The method `Put` of the embedded store. -/
def Blockstore.Put (bs : Blockstore) (block : Block) : Blockstore × Option Err :=
  ({ bs with putCalls := bs.putCalls ++ [block] }, bs.putResult bs.putCalls block)

/-- The test type `PutCountingBlockstore`. -/
structure PutCountingBlockstore where
  Blockstore : Blockstore
  PutCounter : Int

/-- Go `int` arithmetic (64 bits, two's complement). -/
def wrapInt (x : Int) : Int := (x + 2 ^ 63) % 2 ^ 64 - 2 ^ 63

/-- Source method `PutCountingBlockstore.Put`: `bs.PutCounter++`, then forward. -/
def PutCountingBlockstore.Put (bs : PutCountingBlockstore) (block : Block) :
    PutCountingBlockstore × Option Err :=
  let counted : PutCountingBlockstore := { bs with PutCounter := wrapInt (bs.PutCounter + 1) }
  match counted.Blockstore.Put block with
  | (inner, err) => ({ counted with Blockstore := inner }, err)

/-- An `exchange.Interface`; the write-through path of the spec does not use it. -/
abbrev Exchange := Unit

/-- Modelled from the spec: the block service (`blockservice.go`, not among the
sources), as far as writes go: it holds the block store it writes to. -/
structure BlockService where
  blockstore : PutCountingBlockstore

/-- Modelled from the spec: `NewWriteThrough(bs, exch)` (`blockservice.go`, not
among the sources), the write-through decorator over the store `bs`. -/
def NewWriteThrough (bs : PutCountingBlockstore) (_exch : Exchange) : BlockService :=
  { blockstore := bs }

/-- Modelled from the spec: `AddBlock` of the write-through service
(`blockservice.go`, not among the sources), section 6: the write is forwarded
unconditionally, no dedup, no batching; every call issues exactly one `Put` on
the underlying store. -/
def BlockService.AddBlock (s : BlockService) (o : Block) : BlockService × Option Err :=
  match s.blockstore.Put o with
  | (bs, err) => ({ blockstore := bs }, err)

/-- The service after `n` sequential `AddBlock(o)` calls. -/
def addBlockTimes (s : BlockService) (o : Block) : Nat → BlockService
  | 0 => s
  | n + 1 => addBlockTimes (s.AddBlock o).1 o n

/-- Source test `TestWriteThroughWorks`: the two values of `bstore.PutCounter`
the test compares with 1 and 2. -/
def TestWriteThroughWorks (inner : Blockstore) (block : Block) : Int × Int :=
  let bstore : PutCountingBlockstore := { Blockstore := inner, PutCounter := 0 }
  let bserv := NewWriteThrough bstore ()
  let bserv1 := (bserv.AddBlock block).1
  let bserv2 := (bserv1.AddBlock block).1
  (bserv1.blockstore.PutCounter, bserv2.blockstore.PutCounter)

/-! ## Specification-side notions -/

/-- Relation `Reachable d a b`: `b` is reached from `a` by following links of nodes whose
child lookup succeeds (`a` itself included). -/
inductive Reachable (d : DAGService) : Cid → Cid → Prop
  | root (a : Cid) : Reachable d a a
  | link {a b c : Cid} {links : List Cid} :
      Reachable d a b → d.GetLinks b = Except.ok links → c ∈ links → Reachable d a c

/-- The peer identities carried by the `Provider` events of a sequence of events,
in order. -/
def providerIDs : List QueryEvent → List PeerID
  | [] => []
  | ev :: evs =>
    if ev.Kind = QueryEventType.Provider then
      ev.Responses.map PeerInfo.ID ++ providerIDs evs
    else providerIDs evs

/-- Links still to be fed into the frontier: those of the store entries not yet seen. -/
def pending (nodes : List (Cid × Except Err (List Cid))) (seen : CidSet) : Nat :=
  (nodes.map (fun e => if e.1 ∈ seen then 0 else linkCount e.2)).sum

/-- The invariant of the traversal loop from `root`. -/
def TraversalInv (d : DAGService) (root : Cid) (todo : List Cid) (seen : CidSet) : Prop :=
  seen.Nodup ∧
  (∀ x ∈ seen, Reachable d root x) ∧
  (∀ x ∈ todo, Reachable d root x) ∧
  (root ∈ seen ∨ root ∈ todo) ∧
  (∀ x ∈ seen, ∃ links, d.GetLinks x = Except.ok links ∧ ∀ y ∈ links, y ∈ seen ∨ y ∈ todo)

/-- What a finished traversal from `root` returns: on success the set of the
identifiers reachable from `root`, each once, all with a successful child lookup;
on failure the error of the child lookup of a reachable identifier. -/
def TraversalPost (d : DAGService) (root : Cid) : Except Err CidSet → Prop
  | Except.ok s =>
    s.Nodup ∧ (∀ x, x ∈ s ↔ Reachable d root x) ∧
      (∀ x, Reachable d root x → ∃ links, d.GetLinks x = Except.ok links)
  | Except.error err => ∃ x, Reachable d root x ∧ d.GetLinks x = Except.error err

/-! ## Concrete inputs -/

/-- A routing backend on which every call succeeds. -/
def okRouting : IpfsRouting :=
  { isDHT := true
    FindPeer := fun p => Except.ok { ID := p, Addrs := [] }
    FindProvidersAsync := fun _ _ => { items := [], closed := true }
    Provide := fun _ _ _ => none }

/-- The diamond: root 0 with children 1 and 2, both linking to the grandchild 3. -/
def diamond : DAGService :=
  { nodes := [(0, Except.ok [1, 2]), (1, Except.ok [3]), (2, Except.ok [3]), (3, Except.ok [])] }

/-- A node holding the diamond, with one live connection. -/
def diamondNode : Node :=
  { Routing := some okRouting
    Conns := [7]
    ResolvePath := fun p => Except.ok p
    BlockstoreHas := fun _ => Except.ok true
    DAG := diamond
    cidString := fun _ => "QmRoot" }

/-- The diamond node without a routing capability (offline). -/
def offlineNode : Node := { diamondNode with Routing := none }

/-- The diamond node with routing configured but no live connection. -/
def lonelyNode : Node := { diamondNode with Conns := [] }

/-- The diamond node whose block store holds nothing. -/
def emptyStoreNode : Node := { diamondNode with BlockstoreHas := fun _ => Except.ok false }

/-- The diamond node whose block store fails on `Has`. -/
def brokenStoreNode : Node :=
  { diamondNode with BlockstoreHas := fun _ => Except.error "datastore closed" }

/-- A routing backend that is not a DHT. -/
def plainRouting : IpfsRouting := { okRouting with isDHT := false }

/-- The diamond node over a routing backend that is not a DHT. -/
def plainNode : Node := { diamondNode with Routing := some plainRouting }

/-- A DHT on which the peer lookup fails and which knows three providers. -/
def lossyDHT : IpfsRouting :=
  { isDHT := true
    FindPeer := fun _ => Except.error "routing: not found"
    FindProvidersAsync := fun _ _ =>
      { items := [{ ID := 11, Addrs := [1] }, { ID := 12, Addrs := [] },
          { ID := 13, Addrs := [2, 3] }],
        closed := true }
    Provide := fun _ c _ => if c = 2 then some "announce failed" else none }

/-- The diamond node over `lossyDHT`. -/
def lossyNode : Node := { diamondNode with Routing := some lossyDHT }

/-- A context that is never cancelled. -/
def background : Context := { dropped := fun _ => false, sends := none }

/-- A context cancelled while the second provider is being published: that
publication is dropped, the third one is handed over, and the consumer goes on
sending. -/
def cancelledMidway : Context := { dropped := fun i => decide (i = 1), sends := none }

/-- The diamond with a grandchild whose child lookup fails, next to a leaf 5. -/
def brokenDiamond : DAGService :=
  { nodes := [(0, Except.ok [1, 2]), (1, Except.ok [3]), (2, Except.ok [3]),
      (3, Except.error "fetch failed"), (5, Except.ok [])] }

/-- An empty underlying block store that accepts every write. -/
def mapBlockstore : Blockstore := { putCalls := [], putResult := fun _ _ => none }

/-- A block, as `bgen.Next()` gives one. -/
def sampleBlock : Block := { Cid := 42, RawData := [1, 2, 3] }


/-! ## The visited set -/

theorem visit_seen {s : CidSet} {c : Cid} (h : c ∈ s) : CidSet.Visit s c = (false, s) := by
  simp [CidSet.Visit, CidSet.Has, h]

theorem visit_unseen {s : CidSet} {c : Cid} (h : c ∉ s) :
    CidSet.Visit s c = (true, s ++ [c]) := by
  simp [CidSet.Visit, CidSet.Add, CidSet.Has, h]

/-! ## Termination measure of the traversal -/

theorem pending_mono (nodes : List (Cid × Except Err (List Cid))) (seen : CidSet) (c : Cid) :
    pending nodes (seen ++ [c]) ≤ pending nodes seen := by
  induction nodes with
  | nil => simp [pending]
  | cons e rest ih =>
    simp only [pending, List.map_cons, List.sum_cons] at ih ⊢
    have : (if e.1 ∈ seen ++ [c] then 0 else linkCount e.2)
        ≤ (if e.1 ∈ seen then 0 else linkCount e.2) := by
      by_cases h1 : e.1 ∈ seen
      · simp [h1]
      · by_cases h2 : e.1 = c
        · simp [h2]
        · simp [h1, h2]
    omega

theorem pending_visit (nodes : List (Cid × Except Err (List Cid))) (seen : CidSet) (c : Cid)
    (e : Cid × Except Err (List Cid)) (links : List Cid)
    (hfind : nodes.find? (fun e => e.1 == c) = some e) (hlinks : e.2 = Except.ok links)
    (hc : c ∉ seen) :
    pending nodes (seen ++ [c]) + links.length ≤ pending nodes seen := by
  induction nodes with
  | nil => simp at hfind
  | cons e0 rest ih =>
    simp only [pending, List.map_cons, List.sum_cons] at ih ⊢
    by_cases h0 : e0.1 = c
    · have hb : (e0.1 == c) = true := by simp [h0]
      rw [List.find?_cons, hb] at hfind
      have he : e0 = e := by simpa using hfind
      subst he
      have hrest := pending_mono rest seen c
      simp only [pending] at hrest
      have h1 : e0.1 ∉ seen := by rw [h0]; exact hc
      have h2 : e0.1 ∈ seen ++ [c] := by simp [h0]
      have h3 : linkCount e0.2 = links.length := by rw [hlinks]; rfl
      rw [if_pos h2, if_neg h1, h3]
      omega
    · have hb : (e0.1 == c) = false := by simp [h0]
      rw [List.find?_cons, hb] at hfind
      have ih1 := ih hfind
      have : (if e0.1 ∈ seen ++ [c] then 0 else linkCount e0.2)
          = (if e0.1 ∈ seen then 0 else linkCount e0.2) := by
        by_cases h1 : e0.1 ∈ seen
        · simp [h1]
        · simp [h1, h0]
      omega

theorem getLinks_pending (d : DAGService) (seen : CidSet) (c : Cid) (links : List Cid)
    (h : d.GetLinks c = Except.ok links) (hc : c ∉ seen) :
    pending d.nodes (seen ++ [c]) + links.length ≤ pending d.nodes seen := by
  unfold DAGService.GetLinks at h
  cases hf : d.nodes.find? (fun e => e.1 == c) with
  | none => simp [hf] at h
  | some e =>
    simp [hf] at h
    exact pending_visit d.nodes seen c e links hf h hc

theorem pending_nil_lt_fuel (d : DAGService) : [(0 : Cid)].length + pending d.nodes [] < traversalFuel d := by
  simp only [pending, traversalFuel, List.length_singleton, List.not_mem_nil, if_false]
  omega

/-! ## The traversal returns the reachable set -/

theorem closed_of_inv (d : DAGService) (root : Cid) (seen : CidSet)
    (h : TraversalInv d root [] seen) (x : Cid) (hx : Reachable d root x) : x ∈ seen := by
  obtain ⟨_, _, _, hroot, hclosed⟩ := h
  induction hx with
  | root =>
    rcases hroot with h1 | h1
    · exact h1
    · simp at h1
  | link _ hget hmem ih =>
    obtain ⟨links1, hget1, hall⟩ := hclosed _ ih
    rw [hget] at hget1
    cases hget1
    rcases hall _ hmem with h1 | h1
    · exact h1
    · simp at h1

theorem inv_step_seen (d : DAGService) (root c : Cid) (todo : List Cid) (seen : CidSet)
    (h : TraversalInv d root (c :: todo) seen) (hc : c ∈ seen) :
    TraversalInv d root todo seen := by
  obtain ⟨hnd, hs, ht, hroot, hclosed⟩ := h
  refine ⟨hnd, hs, fun x hx => ht x (List.mem_cons_of_mem _ hx), ?_, ?_⟩
  · rcases hroot with h1 | h1
    · exact Or.inl h1
    · rcases List.mem_cons.mp h1 with h2 | h2
      · exact Or.inl (h2 ▸ hc)
      · exact Or.inr h2
  · intro x hx
    obtain ⟨links, hget, hall⟩ := hclosed x hx
    refine ⟨links, hget, fun y hy => ?_⟩
    rcases hall y hy with h1 | h1
    · exact Or.inl h1
    · rcases List.mem_cons.mp h1 with h2 | h2
      · exact Or.inl (h2 ▸ hc)
      · exact Or.inr h2

theorem inv_step_unseen (d : DAGService) (root c : Cid) (todo links : List Cid) (seen : CidSet)
    (h : TraversalInv d root (c :: todo) seen) (hc : c ∉ seen)
    (hget : d.GetLinks c = Except.ok links) :
    TraversalInv d root (todo ++ links) (seen ++ [c]) := by
  obtain ⟨hnd, hs, ht, hroot, hclosed⟩ := h
  have hcr : Reachable d root c := ht c (List.mem_cons_self _ _)
  refine ⟨?_, ?_, ?_, ?_, ?_⟩
  · rw [List.nodup_append]
    refine ⟨hnd, List.nodup_singleton c, ?_⟩
    intro a ha hb
    rw [List.mem_singleton] at hb
    exact hc (hb ▸ ha)
  · intro x hx
    rcases List.mem_append.mp hx with h1 | h1
    · exact hs x h1
    · rw [List.mem_singleton] at h1
      exact h1 ▸ hcr
  · intro x hx
    rcases List.mem_append.mp hx with h1 | h1
    · exact ht x (List.mem_cons_of_mem _ h1)
    · exact Reachable.link hcr hget h1
  · rcases hroot with h1 | h1
    · exact Or.inl (List.mem_append_left _ h1)
    · rcases List.mem_cons.mp h1 with h2 | h2
      · exact Or.inl (by rw [h2]; simp)
      · exact Or.inr (List.mem_append_left _ h2)
  · intro x hx
    rcases List.mem_append.mp hx with h1 | h1
    · obtain ⟨links1, hget1, hall⟩ := hclosed x h1
      refine ⟨links1, hget1, fun y hy => ?_⟩
      rcases hall y hy with h2 | h2
      · exact Or.inl (List.mem_append_left _ h2)
      · rcases List.mem_cons.mp h2 with h3 | h3
        · exact Or.inl (by rw [h3]; simp)
        · exact Or.inr (List.mem_append_left _ h3)
    · rw [List.mem_singleton] at h1
      subst h1
      exact ⟨links, hget, fun y hy => Or.inr (List.mem_append_right _ hy)⟩

theorem enumerateLoop_spec (d : DAGService) (root : Cid) :
    ∀ (fuel : Nat) (todo : List Cid) (seen : CidSet) (tr : List Call),
      TraversalInv d root todo seen → todo.length + pending d.nodes seen < fuel →
      ∃ (cs : List Cid) (res : Except Err CidSet),
        enumerateLoop d fuel todo seen tr = some (tr ++ cs.map Call.getLinks, res) ∧
        TraversalPost d root res := by
  intro fuel
  induction fuel with
  | zero => intro todo seen tr _ hlt; omega
  | succ fuel ih =>
    intro todo seen tr hinv hlt
    cases todo with
    | nil =>
      refine ⟨[], Except.ok seen, by simp [enumerateLoop], ?_⟩
      refine ⟨hinv.1, fun x => ⟨hinv.2.1 x, closed_of_inv d root seen hinv x⟩, ?_⟩
      intro x hx
      obtain ⟨links, hget, _⟩ := hinv.2.2.2.2 x (closed_of_inv d root seen hinv x hx)
      exact ⟨links, hget⟩
    | cons c todo =>
      have hcr : Reachable d root c := hinv.2.2.1 c (List.mem_cons_self _ _)
      cases hget : d.GetLinks c with
      | error err =>
        refine ⟨[c], Except.error err, by simp [enumerateLoop, hget], ?_⟩
        exact ⟨c, hcr, hget⟩
      | ok links =>
        by_cases hc : c ∈ seen
        · have hlt1 : todo.length + pending d.nodes seen < fuel := by
            simp only [List.length_cons] at hlt
            omega
          obtain ⟨cs, res, hrun, hpost⟩ :=
            ih todo seen (tr ++ [Call.getLinks c]) (inv_step_seen d root c todo seen hinv hc) hlt1
          refine ⟨c :: cs, res, ?_, hpost⟩
          simp only [enumerateLoop, hget, visit_seen hc, hrun]
          simp
        · have hm := getLinks_pending d seen c links hget hc
          have hlt1 : (todo ++ links).length + pending d.nodes (seen ++ [c]) < fuel := by
            simp only [List.length_cons, List.length_append] at hlt ⊢
            omega
          obtain ⟨cs, res, hrun, hpost⟩ :=
            ih (todo ++ links) (seen ++ [c]) (tr ++ [Call.getLinks c])
              (inv_step_unseen d root c todo links seen hinv hc hget) hlt1
          refine ⟨c :: cs, res, ?_, hpost⟩
          simp only [enumerateLoop, hget, visit_unseen hc, hrun]
          simp

theorem inv_init (d : DAGService) (c : Cid) : TraversalInv d c [c] [] := by
  refine ⟨List.nodup_nil, ?_, ?_, Or.inr (List.mem_singleton_self c), ?_⟩
  · intro x hx; simp at hx
  · intro x hx
    rw [List.mem_singleton] at hx
    rw [hx]
    exact Reachable.root c
  · intro x hx; simp at hx

/-- The traversal of `provideKeysRec` finishes within its iteration budget, logs
only child lookups, and returns what `TraversalPost` says. -/
theorem enumerateChildrenAsync_spec (d : DAGService) (c : Cid) :
    ∃ (cs : List Cid) (res : Except Err CidSet),
      EnumerateChildrenAsync d c NewSet = (cs.map Call.getLinks, res) ∧
      TraversalPost d c res := by
  obtain ⟨cs, res, hrun, hpost⟩ :=
    enumerateLoop_spec d c (traversalFuel d) [c] [] [] (inv_init d c) (pending_nil_lt_fuel d)
  refine ⟨cs, res, ?_, hpost⟩
  simp only [EnumerateChildrenAsync, NewSet, hrun, List.nil_append]

/-! ## Projections of the call log -/

theorem announced_append (a b : List Call) : announced (a ++ b) = announced a ++ announced b := by
  induction a with
  | nil => rfl
  | cons x a ih => cases x <;> simp [announced, ih]

theorem announceFlags_append (a b : List Call) :
    announceFlags (a ++ b) = announceFlags a ++ announceFlags b := by
  induction a with
  | nil => rfl
  | cons x a ih => cases x <;> simp [announceFlags, ih]

theorem lookups_append (a b : List Call) : lookups (a ++ b) = lookups a ++ lookups b := by
  induction a with
  | nil => rfl
  | cons x a ih => cases x <;> simp [lookups, ih]

theorem announced_getLinks (cs : List Cid) : announced (cs.map Call.getLinks) = [] := by
  induction cs with
  | nil => rfl
  | cons c cs ih => simpa [announced] using ih

theorem announceFlags_getLinks (cs : List Cid) : announceFlags (cs.map Call.getLinks) = [] := by
  induction cs with
  | nil => rfl
  | cons c cs ih => simpa [announceFlags] using ih

theorem announced_provide (ks : List Cid) :
    announced (ks.map (fun k => Call.routingProvide k true)) = ks := by
  induction ks with
  | nil => rfl
  | cons c cs ih => simpa [announced] using ih

theorem announceFlags_provide (ks : List Cid) :
    ∀ b ∈ announceFlags (ks.map (fun k => Call.routingProvide k true)), b = true := by
  induction ks with
  | nil => intro b hb; simp [announceFlags] at hb
  | cons c cs ih =>
    intro b hb
    simp only [List.map_cons, announceFlags, List.mem_cons] at hb
    rcases hb with h | h
    · exact h
    · exact ih b h

theorem lookups_provide (ks : List Cid) :
    lookups (ks.map (fun k => Call.routingProvide k true)) = [] := by
  induction ks with
  | nil => rfl
  | cons c cs ih => simpa [lookups] using ih

/-! ## The announcement loop -/

theorem has_eq_true {s : CidSet} {c : Cid} (h : c ∈ s) : CidSet.Has s c = true := by
  simp [CidSet.Has, h]

theorem has_eq_false {s : CidSet} {c : Cid} (h : c ∉ s) : CidSet.Has s c = false := by
  simp [CidSet.Has, h]

theorem add_unseen {s : CidSet} {c : Cid} (h : c ∉ s) : CidSet.Add s c = s ++ [c] := by
  simp [CidSet.Add, CidSet.Has, h]

/-- When every announce call succeeds, the inner loop announces the keys not yet
provided, each once, and records them. -/
theorem announceKeys_ok (r : IpfsRouting) (hann : ∀ hist c, r.Provide hist c true = none) :
    ∀ (ks : List Cid) (provided : CidSet) (tr : List Call),
      ∃ new : List Cid,
        announceKeys r ks provided tr
          = (tr ++ new.map (fun k => Call.routingProvide k true), provided ++ new, none) ∧
        new.Nodup ∧ (∀ x, x ∈ new ↔ x ∈ ks ∧ x ∉ provided) := by
  intro ks
  induction ks with
  | nil =>
    intro provided tr
    exact ⟨[], by simp [announceKeys], List.nodup_nil, by simp⟩
  | cons k ks ih =>
    intro provided tr
    by_cases hk : k ∈ provided
    · obtain ⟨new, hrun, hnd, hmem⟩ := ih provided tr
      refine ⟨new, ?_, hnd, ?_⟩
      · simp only [announceKeys, has_eq_true hk, if_true, hrun]
      · intro x
        rw [hmem x, List.mem_cons]
        constructor
        · rintro ⟨h1, h2⟩
          exact ⟨Or.inr h1, h2⟩
        · rintro ⟨h1 | h1, h2⟩
          · exact absurd (h1 ▸ hk) h2
          · exact ⟨h1, h2⟩
    · obtain ⟨new, hrun, hnd, hmem⟩ :=
        ih (provided ++ [k]) (tr ++ [Call.routingProvide k true])
      have hknew : k ∉ new := by
        intro h
        have := ((hmem k).mp h).2
        simp at this
      refine ⟨k :: new, ?_, List.nodup_cons.mpr ⟨hknew, hnd⟩, ?_⟩
      · simp only [announceKeys, has_eq_false hk, hann, add_unseen hk, hrun]
        simp
      · intro x
        rw [List.mem_cons, hmem x, List.mem_cons]
        constructor
        · rintro (h | ⟨h1, h2⟩)
          · exact ⟨Or.inl h, h ▸ hk⟩
          · exact ⟨Or.inr h1, fun h3 => h2 (List.mem_append_left _ h3)⟩
        · rintro ⟨h1 | h1, h2⟩
          · exact Or.inl h1
          · by_cases hx : x = k
            · exact Or.inl hx
            · refine Or.inr ⟨h1, ?_⟩
              intro h3
              rcases List.mem_append.mp h3 with h4 | h4
              · exact h2 h4
              · exact hx (List.mem_singleton.mp h4)

/-- When every traversal and every announce call succeed, the outer loop
announces, each once, the identifiers reachable from the roots and not yet provided. -/
theorem provideKeysRecLoop_ok (order : List Cid → List Cid) (r : IpfsRouting) (d : DAGService)
    (horder : ∀ l, (order l).Perm l) (hann : ∀ hist c, r.Provide hist c true = none) :
    ∀ (roots : List Cid) (provided : CidSet) (tr : List Call),
      (∀ root ∈ roots, ∃ kset, (EnumerateChildrenAsync d root NewSet).2 = Except.ok kset) →
      provided.Nodup →
      ∃ new : List Call,
        provideKeysRecLoop order r d roots provided tr
          = (tr ++ new, provided ++ announced new, none) ∧
        (provided ++ announced new).Nodup ∧
        (∀ x, x ∈ announced new ↔ x ∉ provided ∧ ∃ root ∈ roots, Reachable d root x) ∧
        (∀ b ∈ announceFlags new, b = true) := by
  intro roots
  induction roots with
  | nil =>
    intro provided tr _ hnd
    refine ⟨[], by simp [provideKeysRecLoop, announced], by simpa [announced] using hnd, ?_, ?_⟩
    · intro x; simp [announced]
    · intro b hb; simp [announceFlags] at hb
  | cons c roots ih =>
    intro provided tr htrav hnd
    obtain ⟨cs, res, htr, hpost⟩ := enumerateChildrenAsync_spec d c
    obtain ⟨kset, hk⟩ := htrav c (List.mem_cons_self _ _)
    rw [htr] at hk
    simp only at hk
    subst hk
    obtain ⟨hknd, hkmem, _⟩ := hpost
    obtain ⟨new1, hrun1, hnd1, hmem1⟩ :=
      announceKeys_ok r hann (CidSet.Keys order kset) provided (tr ++ cs.map Call.getLinks)
    have hnd2 : (provided ++ new1).Nodup := by
      rw [List.nodup_append]
      exact ⟨hnd, hnd1, fun a ha hb => ((hmem1 a).mp hb).2 ha⟩
    obtain ⟨new2, hrun2, hnd3, hmem2, hflags2⟩ :=
      ih (provided ++ new1)
        (tr ++ cs.map Call.getLinks ++ new1.map (fun k => Call.routingProvide k true))
        (fun root hroot => htrav root (List.mem_cons_of_mem _ hroot)) hnd2
    have hann1 : announced (cs.map Call.getLinks
        ++ new1.map (fun k => Call.routingProvide k true) ++ new2) = new1 ++ announced new2 := by
      rw [announced_append, announced_append, announced_getLinks, announced_provide]
      rfl
    refine ⟨cs.map Call.getLinks ++ new1.map (fun k => Call.routingProvide k true) ++ new2,
      ?_, ?_, ?_, ?_⟩
    · simp only [provideKeysRecLoop, htr, hrun1, hrun2, hann1]
      simp [List.append_assoc]
    · rw [hann1, ← List.append_assoc]
      exact hnd3
    · intro x
      rw [hann1, List.mem_append, hmem1 x, hmem2 x]
      have hkeys : x ∈ CidSet.Keys order kset ↔ Reachable d c x := by
        rw [← hkmem x]
        exact (horder kset).mem_iff
      rw [hkeys]
      constructor
      · rintro (⟨h1, h2⟩ | ⟨h1, root, hroot, hreach⟩)
        · exact ⟨h2, c, List.mem_cons_self _ _, h1⟩
        · exact ⟨fun h => h1 (List.mem_append_left _ h), root,
            List.mem_cons_of_mem _ hroot, hreach⟩
      · rintro ⟨h1, root, hroot, hreach⟩
        by_cases hx : Reachable d c x
        · exact Or.inl ⟨hx, h1⟩
        · refine Or.inr ⟨?_, root, ?_, hreach⟩
          · intro h
            rcases List.mem_append.mp h with h2 | h2
            · exact h1 h2
            · exact hx (((hkeys).mp ((hmem1 x).mp h2).1))
          · rcases List.mem_cons.mp hroot with h2 | h2
            · exact absurd (h2 ▸ hreach) hx
            · exact h2
    · intro b hb
      rw [announceFlags_append, announceFlags_append, announceFlags_getLinks] at hb
      rcases List.mem_append.mp hb with h | h
      · exact announceFlags_provide new1 b (by simpa using h)
      · exact hflags2 b h

/-! ## C1: recursive announcement, each reachable identifier once -/

/-- C1. When the traversals and every announce call succeed, `provideKeysRec`
returns no error and its announce calls are, without duplicates, exactly the
identifiers reachable from the roots (root included), all with the
announce-to-network flag set; so does recursive `Provide` for the identifier its
path resolves to. On the diamond (a root, two children, one shared grandchild)
recursive `Provide` makes exactly 4 announce calls, one per identifier. -/
theorem provideKeysRec_announces_reachable_once (order : List Cid → List Cid)
    (r : IpfsRouting) (d : DAGService)
    (horder : ∀ l, (order l).Perm l) (hann : ∀ hist c, r.Provide hist c true = none) :
    (∀ (roots : List Cid) (tr : List Call),
      (∀ root ∈ roots, ∃ kset, (EnumerateChildrenAsync d root NewSet).2 = Except.ok kset) →
      ∃ new : List Call,
        provideKeysRec order r d roots tr = (tr ++ new, none) ∧
        (announced new).Nodup ∧
        (∀ x, x ∈ announced new ↔ ∃ root ∈ roots, Reachable d root x) ∧
        (∀ b ∈ announceFlags new, b = true)) ∧
    (∀ (node : Node) (path : Path) (c : Cid),
      node.Routing = some r → node.DAG = d → node.Conns ≠ [] →
      node.ResolvePath path = Except.ok c → node.BlockstoreHas c = Except.ok true →
      (∃ kset, (EnumerateChildrenAsync d c NewSet).2 = Except.ok kset) →
      ∃ new : List Call,
        Provide order node path (Except.ok { Recursive := true })
          = ([Call.conns, Call.resolvePath path, Call.blockstoreHas c] ++ new, none) ∧
        (announced new).Nodup ∧
        (∀ x, x ∈ announced new ↔ Reachable d c x)) ∧
    announced (Provide id diamondNode 0 (Except.ok { Recursive := true })).1 = [0, 1, 2, 3] ∧
    (announced (Provide id diamondNode 0 (Except.ok { Recursive := true })).1).length = 4 := by
  have hmain : ∀ (roots : List Cid) (tr : List Call),
      (∀ root ∈ roots, ∃ kset, (EnumerateChildrenAsync d root NewSet).2 = Except.ok kset) →
      ∃ new : List Call,
        provideKeysRec order r d roots tr = (tr ++ new, none) ∧
        (announced new).Nodup ∧
        (∀ x, x ∈ announced new ↔ ∃ root ∈ roots, Reachable d root x) ∧
        (∀ b ∈ announceFlags new, b = true) := by
    intro roots tr htrav
    obtain ⟨new, hrun, hnd, hmem, hflags⟩ :=
      provideKeysRecLoop_ok order r d horder hann roots [] tr htrav List.nodup_nil
    refine ⟨new, ?_, by simpa using hnd, ?_, hflags⟩
    · simp only [provideKeysRec, NewSet, hrun]
    · intro x
      rw [hmem x]
      simp
  refine ⟨hmain, ?_, by decide, by decide⟩
  intro node path c hr hd hconns hres hhas htrav
  obtain ⟨new, hrun, hnd, hmem, _⟩ :=
    hmain [c] [Call.conns, Call.resolvePath path, Call.blockstoreHas c]
      (fun root hroot => by
        rw [List.mem_singleton] at hroot
        rw [hroot]
        exact htrav)
  refine ⟨new, ?_, hnd, ?_⟩
  · have hlen : node.Conns.length ≠ 0 := by
      intro h
      exact hconns (List.length_eq_zero.mp h)
    simp only [Provide, hr, hd, hres, hhas, if_neg hlen, hrun]
    simp
  · intro x
    rw [hmem x]
    simp

/-- C1 at the diamond: the hypotheses hold there and the theorem applies. -/
theorem provideKeysRec_announces_reachable_once_witness :
    ∃ new : List Call,
      provideKeysRec id okRouting diamond [0] [] = ([] ++ new, none) ∧
      (announced new).Nodup ∧
      (∀ x, x ∈ announced new ↔ ∃ root ∈ [0], Reachable diamond root x) ∧
      (∀ b ∈ announceFlags new, b = true) :=
  (provideKeysRec_announces_reachable_once id okRouting diamond
      (fun l => List.Perm.refl l) (fun _ _ => rfl)).1 [0] []
    (fun root hroot => by
      rw [List.mem_singleton] at hroot
      rw [hroot]
      exact ⟨[0, 1, 2, 3], rfl⟩)

/-! ## C2, C4, C5: the preconditions of `Provide` and the non-recursive path -/

/-- C2. With valid options, `Provide` on a node without routing fails with
"cannot provide in offline mode" and makes no call at all (connection list, path
resolver and block store are not consulted); with routing configured and no live
connection it fails with "cannot provide, no connected peers" after consulting
the connection list only (no path resolution, no block store check). -/
theorem provide_precondition_order (order : List Cid → List Cid) (node : Node) (path : Path)
    (settings : DhtProvideSettings) :
    (node.Routing = none →
      Provide order node path (Except.ok settings)
        = ([], some "cannot provide in offline mode")) ∧
    (∀ r, node.Routing = some r → node.Conns = [] →
      Provide order node path (Except.ok settings)
        = ([Call.conns], some "cannot provide, no connected peers")) := by
  constructor
  · intro h
    simp only [Provide, h]
  · intro r h hc
    simp only [Provide, h, hc, List.length_nil, if_true]

/-- C2 at an offline node and at a disconnected node. -/
theorem provide_precondition_order_witness :
    Provide id offlineNode 0 (Except.ok { Recursive := true })
        = ([], some "cannot provide in offline mode") ∧
    Provide id lonelyNode 0 (Except.ok { Recursive := true })
        = ([Call.conns], some "cannot provide, no connected peers") :=
  ⟨(provide_precondition_order id offlineNode 0 { Recursive := true }).1 rfl,
   (provide_precondition_order id lonelyNode 0 { Recursive := true }).2 okRouting rfl rfl⟩

/-- C4 as stated fails: the error returned when the block is not held locally is
not the text "block not found locally, cannot provide". -/
theorem provide_block_not_found_message_counterexample :
    (Provide id emptyStoreNode 0 (Except.ok { Recursive := false })).2
      ≠ some "block not found locally, cannot provide" := by
  decide

/-- C4, amended. With routing configured, a live connection and the path resolved
to `c`: if the block store reports it does not hold `c`, `Provide` (recursive or
not) fails with "block <c> not found locally, cannot provide", where <c> is the
text form of `c`; if the `Has` check fails, `Provide` returns that error. In both
cases the calls made are the three precondition checks: no announce call and no
DAG child lookup. -/
theorem provide_block_not_held (order : List Cid → List Cid) (node : Node) (path : Path)
    (settings : DhtProvideSettings) (r : IpfsRouting) (c : Cid)
    (hr : node.Routing = some r) (hconns : node.Conns ≠ [])
    (hres : node.ResolvePath path = Except.ok c) :
    (node.BlockstoreHas c = Except.ok false →
      Provide order node path (Except.ok settings)
        = ([Call.conns, Call.resolvePath path, Call.blockstoreHas c],
            some ("block " ++ node.cidString c ++ " not found locally, cannot provide")) ∧
      announced (Provide order node path (Except.ok settings)).1 = [] ∧
      lookups (Provide order node path (Except.ok settings)).1 = []) ∧
    (∀ err, node.BlockstoreHas c = Except.error err →
      Provide order node path (Except.ok settings)
        = ([Call.conns, Call.resolvePath path, Call.blockstoreHas c], some err) ∧
      announced (Provide order node path (Except.ok settings)).1 = [] ∧
      lookups (Provide order node path (Except.ok settings)).1 = []) := by
  have hlen : node.Conns.length ≠ 0 := fun h => hconns (List.length_eq_zero.mp h)
  constructor
  · intro hhas
    have h : Provide order node path (Except.ok settings)
        = ([Call.conns, Call.resolvePath path, Call.blockstoreHas c],
            some ("block " ++ node.cidString c ++ " not found locally, cannot provide")) := by
      simp only [Provide, hr, hres, hhas, if_neg hlen]
      simp
    rw [h]
    exact ⟨rfl, rfl, rfl⟩
  · intro err hhas
    have h : Provide order node path (Except.ok settings)
        = ([Call.conns, Call.resolvePath path, Call.blockstoreHas c], some err) := by
      simp only [Provide, hr, hres, hhas, if_neg hlen]
    rw [h]
    exact ⟨rfl, rfl, rfl⟩

/-- C4, amended, at a node whose store holds nothing. -/
theorem provide_block_not_held_witness :
    Provide id emptyStoreNode 0 (Except.ok { Recursive := true })
        = ([Call.conns, Call.resolvePath 0, Call.blockstoreHas 0],
            some ("block " ++ emptyStoreNode.cidString 0 ++ " not found locally, cannot provide")) ∧
      announced (Provide id emptyStoreNode 0 (Except.ok { Recursive := true })).1 = [] ∧
      lookups (Provide id emptyStoreNode 0 (Except.ok { Recursive := true })).1 = [] :=
  (provide_block_not_held id emptyStoreNode 0 { Recursive := true } okRouting 0 rfl
    (by decide) rfl).1 rfl

/-- C5. A non-recursive `Provide` whose four preconditions hold makes, after the
three precondition checks, exactly one call: the announce of the resolved
identifier `c` with the announce-to-network flag `true`; it makes no DAG child
lookup, and returns what that announce returned (no error on success, the
announce error unchanged on failure). -/
theorem provide_single (order : List Cid → List Cid) (node : Node) (path : Path)
    (r : IpfsRouting) (c : Cid)
    (hr : node.Routing = some r) (hconns : node.Conns ≠ [])
    (hres : node.ResolvePath path = Except.ok c)
    (hhas : node.BlockstoreHas c = Except.ok true) :
    Provide order node path (Except.ok { Recursive := false })
      = ([Call.conns, Call.resolvePath path, Call.blockstoreHas c, Call.routingProvide c true],
          r.Provide [] c true) ∧
    announced (Provide order node path (Except.ok { Recursive := false })).1 = [c] ∧
    announceFlags (Provide order node path (Except.ok { Recursive := false })).1 = [true] ∧
    lookups (Provide order node path (Except.ok { Recursive := false })).1 = [] ∧
    (r.Provide [] c true = none →
      (Provide order node path (Except.ok { Recursive := false })).2 = none) ∧
    (∀ err, r.Provide [] c true = some err →
      (Provide order node path (Except.ok { Recursive := false })).2 = some err) := by
  have hlen : node.Conns.length ≠ 0 := fun h => hconns (List.length_eq_zero.mp h)
  have h : Provide order node path (Except.ok { Recursive := false })
      = ([Call.conns, Call.resolvePath path, Call.blockstoreHas c, Call.routingProvide c true],
          r.Provide [] c true) := by
    simp only [Provide, hr, hres, hhas, if_neg hlen]
    cases hp : r.Provide [] c true with
    | none => simp [provideKeys, announced, hp]
    | some err => simp [provideKeys, announced, hp]
  rw [h]
  exact ⟨rfl, rfl, rfl, rfl, fun h1 => h1, fun err h1 => h1⟩

/-- C5 at the diamond node: one announce call, for the resolved identifier. -/
theorem provide_single_witness :
    Provide id diamondNode 0 (Except.ok { Recursive := false })
      = ([Call.conns, Call.resolvePath 0, Call.blockstoreHas 0, Call.routingProvide 0 true],
          okRouting.Provide [] 0 true) :=
  (provide_single id diamondNode 0 okRouting 0 rfl (by decide) rfl rfl).1

/-! ## C9, C8: synchronous failures of `FindPeer` and `FindProviders` -/

/-- C9. When the routing backend is not a DHT (none configured, or one that is
not a DHT), `FindPeer` returns `ErrNotDHT` and no channel, and makes no call: no
registration for query events, no task started, no routing lookup. -/
theorem findPeer_not_dht (node : Node) (ctx : Context) (p : PeerID)
    (h : node.Routing = none ∨ ∃ r, node.Routing = some r ∧ r.isDHT = false) :
    FindPeer node ctx p = ([], Except.error ErrNotDHT) := by
  rcases h with h | ⟨r, h, hd⟩
  · simp only [FindPeer, h]
  · simp only [FindPeer, h, hd]
    rfl

/-- C9 at a node whose routing backend is not a DHT. -/
theorem findPeer_not_dht_witness :
    FindPeer plainNode background 5 = ([], Except.error ErrNotDHT) :=
  findPeer_not_dht plainNode background 5 (Or.inr ⟨plainRouting, rfl, rfl⟩)

/-- C8. With `numProviders < 1`, `FindProviders` returns an error and no channel;
its calls are at most the path resolution, so `FindProvidersAsync` is never
invoked (nor is any task started); and when the backend is a DHT and the path
resolves, the error is "number of providers must be greater than 0". -/
theorem findProviders_numProviders_invalid (node : Node) (ctx : Context) (p : Path) (n : Int)
    (hn : n < 1) :
    (∃ err, (FindProviders node ctx p (Except.ok { NumProviders := n })).2 = Except.error err) ∧
    ((FindProviders node ctx p (Except.ok { NumProviders := n })).1 = [] ∨
      (FindProviders node ctx p (Except.ok { NumProviders := n })).1 = [Call.resolvePath p]) ∧
    (∀ c k, Call.findProvidersAsync c k ∉
      (FindProviders node ctx p (Except.ok { NumProviders := n })).1) ∧
    (∀ r c, node.Routing = some r → r.isDHT = true → node.ResolvePath p = Except.ok c →
      FindProviders node ctx p (Except.ok { NumProviders := n })
        = ([Call.resolvePath p],
            Except.error "number of providers must be greater than 0")) := by
  have key : (∃ err, FindProviders node ctx p (Except.ok { NumProviders := n })
        = ([], Except.error err)) ∨
      (∃ err, FindProviders node ctx p (Except.ok { NumProviders := n })
        = ([Call.resolvePath p], Except.error err)) := by
    cases hr : node.Routing with
    | none => exact Or.inl ⟨ErrNotDHT, by simp only [FindProviders, hr]⟩
    | some r =>
      cases hd : r.isDHT with
      | false => exact Or.inl ⟨ErrNotDHT, by simp only [FindProviders, hr, hd]; rfl⟩
      | true =>
        cases hres : node.ResolvePath p with
        | error err =>
          exact Or.inr ⟨err, by simp only [FindProviders, hr, hd, hres]; rfl⟩
        | ok c =>
          exact Or.inr ⟨"number of providers must be greater than 0", by
            simp only [FindProviders, hr, hd, hres, if_pos hn]; rfl⟩
  refine ⟨?_, ?_, ?_, ?_⟩
  · rcases key with ⟨err, h⟩ | ⟨err, h⟩ <;> exact ⟨err, by rw [h]⟩
  · rcases key with ⟨err, h⟩ | ⟨err, h⟩
    · exact Or.inl (by rw [h])
    · exact Or.inr (by rw [h])
  · intro c k
    rcases key with ⟨err, h⟩ | ⟨err, h⟩ <;> rw [h] <;> simp
  · intro r c hr hd hres
    simp only [FindProviders, hr, hd, hres, if_pos hn]
    rfl

/-- C8 at `numProviders = 0` on a DHT node. -/
theorem findProviders_numProviders_invalid_witness :
    FindProviders lossyNode background 0 (Except.ok { NumProviders := 0 })
      = ([Call.resolvePath 0], Except.error "number of providers must be greater than 0") :=
  (findProviders_numProviders_invalid lossyNode background 0 0 (by decide)).2.2.2
    lossyDHT 0 rfl rfl rfl

/-! ## C6: a failed peer lookup closes the stream empty -/

/-- C6. On a DHT whose peer lookup for `p` fails with `err`, the driver of
`FindPeer` publishes exactly one event, of kind `QueryError` with the error text
as `Extra` (so no `FinalPeer` event), and the returned channel carries no address
and is closed, whenever the context is cancelled or not. -/
theorem findPeer_lookup_error (node : Node) (ctx : Context) (p : PeerID) (r : IpfsRouting)
    (err : Err) (hr : node.Routing = some r) (hd : r.isDHT = true)
    (hfail : r.FindPeer p = Except.error err) :
    findPeerDriver r p = [{ Kind := QueryEventType.QueryError, Responses := [], Extra := err }] ∧
    published (FindPeer node ctx p).1
      = [{ Kind := QueryEventType.QueryError, Responses := [], Extra := err }] ∧
    (FindPeer node ctx p).2 = Except.ok { items := [], closed := true } := by
  have hdrv : findPeerDriver r p
      = [{ Kind := QueryEventType.QueryError, Responses := [], Extra := err }] := by
    simp only [findPeerDriver, hfail]
  refine ⟨hdrv, ?_, ?_⟩
  · simp only [FindPeer, hr, hd, hdrv]
    rfl
  · simp only [FindPeer, hr, hd, hdrv]
    cases hb : ctx.dropped 0 with
    | true => simp [deliver, hb, findPeerConsumer]
    | false => simp [deliver, hb, findPeerConsumer]

/-- C6 at a DHT whose peer lookup fails. -/
theorem findPeer_lookup_error_witness :
    findPeerDriver lossyDHT 5
      = [{ Kind := QueryEventType.QueryError, Responses := [], Extra := "routing: not found" }] ∧
    published (FindPeer lossyNode background 5).1
      = [{ Kind := QueryEventType.QueryError, Responses := [], Extra := "routing: not found" }] ∧
    (FindPeer lossyNode background 5).2 = Except.ok { items := [], closed := true } :=
  findPeer_lookup_error lossyNode background 5 lossyDHT "routing: not found" rfl rfl rfl

/-! ## C7: `FindProviders` forwards the provider stream in order -/

theorem sendProviders_spec (responses : List PeerInfo) :
    ∀ (budget : Option Nat) (out : List PeerID), ∃ rest : List PeerID,
      (sendProviders responses budget out).1 ++ rest = out ++ responses.map PeerInfo.ID ∧
      ((sendProviders responses budget out).2.2 = none → rest = []) ∧
      (budget = none → (sendProviders responses budget out).2.1 = none ∧
        (sendProviders responses budget out).2.2 = none) := by
  induction responses with
  | nil =>
    intro budget out
    exact ⟨[], by simp [sendProviders], fun _ => rfl, fun h => by simp [sendProviders, h]⟩
  | cons np responses ih =>
    intro budget out
    cases budget with
    | none =>
      obtain ⟨rest, h1, h2, h3⟩ := ih none (out ++ [np.ID])
      refine ⟨rest, ?_, ?_, fun _ => ?_⟩
      · simp only [sendProviders, trySend, h1]
        simp
      · simpa only [sendProviders, trySend] using h2
      · simpa only [sendProviders, trySend] using h3 rfl
    | some n =>
      cases n with
      | zero =>
        refine ⟨(np :: responses).map PeerInfo.ID, by simp [sendProviders, trySend], ?_,
          fun h => by cases h⟩
        simp [sendProviders, trySend]
      | succ n =>
        obtain ⟨rest, h1, h2, _⟩ := ih (some n) (out ++ [np.ID])
        refine ⟨rest, ?_, ?_, fun h => by cases h⟩
        · simp only [sendProviders, trySend, h1]
          simp
        · simpa only [sendProviders, trySend] using h2

/-- The consumer forwards an initial segment of the identities of the `Provider`
events it receives, and nothing of the other events. -/
theorem findProvidersConsumer_spec (events : List QueryEvent) :
    ∀ (budget : Option Nat) (eventsClosed : Bool) (out : List PeerID), ∃ rest : List PeerID,
      (findProvidersConsumer events budget eventsClosed out).items ++ rest
        = out ++ providerIDs events ∧
      (budget = none → rest = []) ∧
      (eventsClosed = true →
        (findProvidersConsumer events budget eventsClosed out).closed = true) := by
  induction events with
  | nil =>
    intro budget eventsClosed out
    exact ⟨[], by simp [findProvidersConsumer, providerIDs], fun _ => rfl,
      fun h => by simp [findProvidersConsumer, h]⟩
  | cons ev events ih =>
    intro budget eventsClosed out
    by_cases hk : ev.Kind = QueryEventType.Provider
    · obtain ⟨rest1, hs1, hs2, hs3⟩ := sendProviders_spec ev.Responses budget out
      rcases hsend : sendProviders ev.Responses budget out with ⟨out1, left, _ | err⟩
      · rw [hsend] at hs1 hs2 hs3
        simp only at hs1 hs2 hs3
        have hrest1 : rest1 = [] := hs2 trivial
        subst hrest1
        rw [List.append_nil] at hs1
        obtain ⟨rest, h1, h2, h3⟩ := ih left eventsClosed out1
        refine ⟨rest, ?_, ?_, ?_⟩
        · simp only [findProvidersConsumer, if_pos hk, hsend, providerIDs]
          rw [h1, hs1, List.append_assoc]
        · intro hb
          exact h2 ((hs3 hb).1)
        · intro hc
          simp only [findProvidersConsumer, if_pos hk, hsend]
          exact h3 hc
      · rw [hsend] at hs1 hs3
        simp only at hs1 hs3
        refine ⟨rest1 ++ providerIDs events, ?_, ?_, ?_⟩
        · simp only [findProvidersConsumer, if_pos hk, hsend, providerIDs]
          rw [← List.append_assoc, hs1, List.append_assoc]
        · intro hb
          have := (hs3 hb).2
          simp at this
        · intro _
          simp only [findProvidersConsumer, if_pos hk, hsend]
    · obtain ⟨rest, h1, h2, h3⟩ := ih budget eventsClosed out
      refine ⟨rest, ?_, h2, ?_⟩
      · simp only [findProvidersConsumer, if_neg hk, providerIDs, h1]
      · intro hc
        simp only [findProvidersConsumer, if_neg hk]
        exact h3 hc

/-- What is delivered of the driver's publications carries a subsequence of the
provider identities, and all of them when no publication is dropped. -/
theorem deliver_providers (dropped : Nat → Bool) (l : List PeerInfo) :
    ∀ i : Nat,
      List.Sublist (providerIDs (deliver dropped (findProvidersDriver l) i))
        (l.map PeerInfo.ID) ∧
      ((∀ j, dropped j = false) →
        providerIDs (deliver dropped (findProvidersDriver l) i) = l.map PeerInfo.ID) := by
  induction l with
  | nil =>
    intro i
    exact ⟨by simp [findProvidersDriver, deliver, providerIDs], fun _ => rfl⟩
  | cons np l ih =>
    intro i
    obtain ⟨h1, h2⟩ := ih (i + 1)
    cases hd : dropped i with
    | true =>
      refine ⟨?_, fun hall => ?_⟩
      · simp only [findProvidersDriver, deliver, hd, if_true, List.map_cons]
        exact List.Sublist.cons _ h1
      · rw [hall i] at hd
        cases hd
    | false =>
      refine ⟨?_, fun hall => ?_⟩
      · simp only [findProvidersDriver, deliver, hd, providerIDs, List.map_cons]
        simpa using h1
      · simp only [findProvidersDriver, deliver, hd, providerIDs, List.map_cons, h2 hall]
        simp

/-- C7 as stated fails: with the context cancelled while the second of three
providers is being published, the driver goes on to publish the third; the
channel then carries the identities 11 and 13, which is not an initial segment
of the provider identities 11, 12, 13 (three entries, asked for three). -/
theorem findProviders_cancelled_not_initial_segment_counterexample :
    (FindProviders lossyNode cancelledMidway 0 (Except.ok { NumProviders := 3 })).2
        = Except.ok { items := [11, 13], closed := true } ∧
    (lossyDHT.FindProvidersAsync 0 3).items.map PeerInfo.ID = [11, 12, 13] ∧
    ¬ ∃ rest, [11, 13] ++ rest = (lossyDHT.FindProvidersAsync 0 3).items.map PeerInfo.ID := by
  refine ⟨rfl, rfl, ?_⟩
  rintro ⟨rest, h⟩
  have h1 : (11 : Nat) :: 13 :: rest = [11, 12, 13] := h
  simp at h1

/-- C7, amended. For `numProviders = k ≥ 1` on a DHT with the path resolved to
`c`, and a provider stream `FindProvidersAsync(c, k)` of at most `k` entries:
the returned channel carries peer identities of entries of that stream, in
arrival order, at most one per entry and nothing else (a subsequence); all of
them when the context is never cancelled; an initial segment when no publication
is dropped. It therefore yields at most `k` identities, hence at most `k`
distinct ones. The channel is closed after them when the routing capability has
closed its provider stream. `FindProvidersAsync` is invoked with `c` and `k`.
Whatever events the consumer receives, it forwards an initial segment of the
identities of the `Provider` events only. -/
theorem findProviders_in_order_bounded (node : Node) (ctx : Context) (p : Path) (k : Int)
    (r : IpfsRouting) (c : Cid) (hk : 1 ≤ k)
    (hr : node.Routing = some r) (hd : r.isDHT = true)
    (hres : node.ResolvePath p = Except.ok c)
    (hbound : ((r.FindProvidersAsync c k).items.length : Int) ≤ k) :
    (∃ (out : List PeerID) (closed : Bool),
      (FindProviders node ctx p (Except.ok { NumProviders := k })).2
        = Except.ok { items := out, closed := closed } ∧
      List.Sublist out ((r.FindProvidersAsync c k).items.map PeerInfo.ID) ∧
      (ctx.neverCancelled → out = (r.FindProvidersAsync c k).items.map PeerInfo.ID) ∧
      ((∀ i, ctx.dropped i = false) →
        ∃ rest, out ++ rest = (r.FindProvidersAsync c k).items.map PeerInfo.ID) ∧
      ((r.FindProvidersAsync c k).closed = true → closed = true) ∧
      (out.length : Int) ≤ k ∧ (out.dedup.length : Int) ≤ k) ∧
    Call.findProvidersAsync c k ∈
      (FindProviders node ctx p (Except.ok { NumProviders := k })).1 ∧
    (∀ (events : List QueryEvent) (budget : Option Nat) (eventsClosed : Bool),
      ∃ rest, (findProvidersConsumer events budget eventsClosed []).items ++ rest
        = providerIDs events) := by
  have hnk : ¬ k < 1 := by omega
  obtain ⟨hsub, hall⟩ := deliver_providers ctx.dropped (r.FindProvidersAsync c k).items 0
  obtain ⟨rest, hcons, hnone, hclosed⟩ :=
    findProvidersConsumer_spec
      (deliver ctx.dropped (findProvidersDriver (r.FindProvidersAsync c k).items) 0)
      ctx.sends (r.FindProvidersAsync c k).closed []
  rw [List.nil_append] at hcons
  have hres2 : (FindProviders node ctx p (Except.ok { NumProviders := k })).2
      = Except.ok (findProvidersConsumer
          (deliver ctx.dropped (findProvidersDriver (r.FindProvidersAsync c k).items) 0)
          ctx.sends (r.FindProvidersAsync c k).closed []) := by
    simp only [FindProviders, hr, hd, hres, if_neg hnk]
    simp
  have hout : List.Sublist
      (findProvidersConsumer
        (deliver ctx.dropped (findProvidersDriver (r.FindProvidersAsync c k).items) 0)
        ctx.sends (r.FindProvidersAsync c k).closed []).items
      ((r.FindProvidersAsync c k).items.map PeerInfo.ID) := by
    refine List.Sublist.trans ?_ hsub
    rw [← hcons]
    exact List.sublist_append_left _ _
  have hlen := hout.length_le
  rw [List.length_map] at hlen
  refine ⟨⟨_, _, hres2, hout, ?_, ?_, hclosed, ?_, ?_⟩, ?_, ?_⟩
  · intro hctx
    have hrest : rest = [] := hnone hctx.2
    rw [hrest, List.append_nil] at hcons
    rw [hcons, hall hctx.1]
  · intro hdrop
    exact ⟨rest, by rw [hcons, hall hdrop]⟩
  · omega
  · have h1 := (List.dedup_sublist
      (findProvidersConsumer
        (deliver ctx.dropped (findProvidersDriver (r.FindProvidersAsync c k).items) 0)
        ctx.sends (r.FindProvidersAsync c k).closed []).items).length_le
    omega
  · simp only [FindProviders, hr, hd, hres, if_neg hnk]
    simp
  · intro events budget eventsClosed
    obtain ⟨rest1, h1, _, _⟩ := findProvidersConsumer_spec events budget eventsClosed []
    exact ⟨rest1, by rw [h1, List.nil_append]⟩

/-- C7, amended, at a DHT that knows three providers, asked for three, with the
context cancelled midway. -/
theorem findProviders_in_order_bounded_witness :
    ∃ (out : List PeerID) (closed : Bool),
      (FindProviders lossyNode cancelledMidway 0 (Except.ok { NumProviders := 3 })).2
        = Except.ok { items := out, closed := closed } ∧
      List.Sublist out ((lossyDHT.FindProvidersAsync 0 3).items.map PeerInfo.ID) ∧
      (cancelledMidway.neverCancelled →
        out = (lossyDHT.FindProvidersAsync 0 3).items.map PeerInfo.ID) ∧
      ((∀ i, cancelledMidway.dropped i = false) →
        ∃ rest, out ++ rest = (lossyDHT.FindProvidersAsync 0 3).items.map PeerInfo.ID) ∧
      ((lossyDHT.FindProvidersAsync 0 3).closed = true → closed = true) ∧
      (out.length : Int) ≤ 3 ∧ (out.dedup.length : Int) ≤ 3 :=
  (findProviders_in_order_bounded lossyNode cancelledMidway 0 3 lossyDHT 0 (by decide)
    rfl rfl rfl (by decide)).1

/-! ## C10: the write-through block service -/

theorem wrapInt_small (x : Int) (h0 : 0 ≤ x) (h1 : x < 2 ^ 63) : wrapInt x = x := by
  unfold wrapInt
  have e63 : (2 : Int) ^ 63 = 9223372036854775808 := by norm_num
  have e64 : (2 : Int) ^ 64 = 18446744073709551616 := by norm_num
  rw [e63] at h1
  rw [e63, e64]
  omega

theorem put_forwards (bs : PutCountingBlockstore) (block : Block) :
    (bs.Put block).1.PutCounter = wrapInt (bs.PutCounter + 1) ∧
    (bs.Put block).1.Blockstore.putCalls = bs.Blockstore.putCalls ++ [block] ∧
    (bs.Put block).1.Blockstore.putResult = bs.Blockstore.putResult ∧
    (bs.Put block).2 = bs.Blockstore.putResult bs.Blockstore.putCalls block := by
  simp [PutCountingBlockstore.Put, Blockstore.Put]

theorem addBlock_forwards (s : BlockService) (o : Block) :
    (s.AddBlock o).1.blockstore = (s.blockstore.Put o).1 ∧
    (s.AddBlock o).2 = (s.blockstore.Put o).2 := by
  simp [BlockService.AddBlock]

theorem addBlockTimes_puts (o : Block) :
    ∀ (n : Nat) (s : BlockService),
      (addBlockTimes s o n).blockstore.Blockstore.putCalls
        = s.blockstore.Blockstore.putCalls ++ List.replicate n o := by
  intro n
  induction n with
  | zero => intro s; simp [addBlockTimes]
  | succ n ih =>
    intro s
    simp only [addBlockTimes]
    rw [ih, (addBlock_forwards s o).1, (put_forwards s.blockstore o).2.1, List.replicate_succ]
    simp

theorem addBlockTimes_counter (o : Block) :
    ∀ (n : Nat) (s : BlockService), 0 ≤ s.blockstore.PutCounter →
      s.blockstore.PutCounter + n < 2 ^ 63 →
      (addBlockTimes s o n).blockstore.PutCounter = s.blockstore.PutCounter + n := by
  intro n
  induction n with
  | zero => intro s _ _; simp [addBlockTimes]
  | succ n ih =>
    intro s h0 h1
    have hstep : (s.AddBlock o).1.blockstore.PutCounter = s.blockstore.PutCounter + 1 := by
      rw [(addBlock_forwards s o).1, (put_forwards s.blockstore o).1]
      apply wrapInt_small
      · omega
      · push_cast at h1
        omega
    simp only [addBlockTimes]
    rw [ih (s.AddBlock o).1 (by rw [hstep]; omega) (by rw [hstep]; push_cast at h1; omega), hstep]
    push_cast
    ring

/-- C10. Through a service built with `NewWriteThrough` over a
`PutCountingBlockstore`, `n` sequential `AddBlock(b)` calls forward exactly `n`
`Put` calls of `b` to the underlying store, duplicates included; each
`PutCountingBlockstore.Put` raises the counter by one (in Go `int` arithmetic)
and forwards the block; so with a counter starting at 0 the put count is `n`
after `n` writes (below the 64-bit bound), 1 after the first write of a block and
2 after the second write of the same block, as `TestWriteThroughWorks` expects. -/
theorem writeThrough_forwards_every_write (inner : Blockstore) (b : Block) (n : Nat) :
    (addBlockTimes (NewWriteThrough { Blockstore := inner, PutCounter := 0 } ())
        b n).blockstore.Blockstore.putCalls = inner.putCalls ++ List.replicate n b ∧
    ((n : Int) < 2 ^ 63 →
      (addBlockTimes (NewWriteThrough { Blockstore := inner, PutCounter := 0 } ())
        b n).blockstore.PutCounter = n) ∧
    (∀ bs : PutCountingBlockstore,
      (bs.Put b).1.PutCounter = wrapInt (bs.PutCounter + 1) ∧
      (bs.Put b).1.Blockstore.putCalls = bs.Blockstore.putCalls ++ [b]) ∧
    (∀ bs : PutCountingBlockstore, 0 ≤ bs.PutCounter → bs.PutCounter + 1 < 2 ^ 63 →
      (bs.Put b).1.PutCounter = bs.PutCounter + 1) ∧
    TestWriteThroughWorks inner b = (1, 2) := by
  refine ⟨?_, ?_, ?_, ?_, ?_⟩
  · rw [addBlockTimes_puts]
    rfl
  · intro hn
    have h := addBlockTimes_counter b n (NewWriteThrough { Blockstore := inner, PutCounter := 0 } ())
      (by simp [NewWriteThrough]) (by simpa [NewWriteThrough] using hn)
    rw [h]
    simp [NewWriteThrough]
  · intro bs
    exact ⟨(put_forwards bs b).1, (put_forwards bs b).2.1⟩
  · intro bs h0 h1
    rw [(put_forwards bs b).1]
    exact wrapInt_small _ (by omega) h1
  · have h1 : wrapInt (0 + 1) = 1 := by
      rw [wrapInt_small] <;> norm_num
    have h2 : wrapInt (1 + 1) = 2 := by
      rw [wrapInt_small] <;> norm_num
    show (wrapInt (0 + 1), wrapInt (wrapInt (0 + 1) + 1)) = ((1 : Int), (2 : Int))
    rw [h1, h2]

/-- C10 at two writes of one block into an empty store. -/
theorem writeThrough_forwards_every_write_witness :
    (2 : Int) < 2 ^ 63 ∧
    (addBlockTimes (NewWriteThrough { Blockstore := mapBlockstore, PutCounter := 0 } ())
        sampleBlock 2).blockstore.PutCounter = (2 : Nat) :=
  ⟨by norm_num,
   (writeThrough_forwards_every_write mapBlockstore sampleBlock 2).2.1 (by norm_num)⟩

/-! ## C3: the first failure stops the recursive announcement -/

theorem announceKeys_none (r : IpfsRouting) :
    ∀ (ks : List Cid) (provided : CidSet) (tr tr1 : List Call) (provided1 : CidSet),
      announceKeys r ks provided tr = (tr1, provided1, none) →
      ∃ new : List Cid,
        tr1 = tr ++ new.map (fun k => Call.routingProvide k true) ∧ provided1 = provided ++ new := by
  intro ks
  induction ks with
  | nil =>
    intro provided tr tr1 provided1 h
    simp only [announceKeys, Prod.mk.injEq] at h
    exact ⟨[], by simp [h.1], by simp [h.2.1]⟩
  | cons k ks ih =>
    intro provided tr tr1 provided1 h
    by_cases hk : k ∈ provided
    · simp only [announceKeys, has_eq_true hk, if_true] at h
      exact ih provided tr tr1 provided1 h
    · simp only [announceKeys, has_eq_false hk] at h
      cases hp : r.Provide (announced tr) k true with
      | some err => simp [hp] at h
      | none =>
        simp only [hp, add_unseen hk] at h
        obtain ⟨new, h1, h2⟩ := ih _ _ tr1 provided1 (by simpa using h)
        exact ⟨k :: new, by simp [h1], by simp [h2]⟩

theorem announceKeys_fail (r : IpfsRouting) (k : Cid) (post : List Cid) (err : Err) :
    ∀ (ks : List Cid) (provided : CidSet) (tr : List Call) (pre : List Cid),
      ks.Nodup →
      ks.filter (fun x => decide (x ∉ provided)) = pre ++ k :: post →
      (∀ a x b, pre = a ++ x :: b → r.Provide (announced tr ++ a) x true = none) →
      r.Provide (announced tr ++ pre) k true = some err →
      announceKeys r ks provided tr
        = (tr ++ (pre ++ [k]).map (fun k => Call.routingProvide k true),
            provided ++ pre, some err) := by
  intro ks
  induction ks with
  | nil =>
    intro provided tr pre _ hf _ _
    simp at hf
  | cons k0 ks ih =>
    intro provided tr pre hnd hf hok hfail
    rw [List.nodup_cons] at hnd
    by_cases hk : k0 ∈ provided
    · have hf1 : ks.filter (fun x => decide (x ∉ provided)) = pre ++ k :: post := by
        rw [List.filter_cons] at hf
        simpa [hk] using hf
      simp only [announceKeys, has_eq_true hk, if_true]
      exact ih provided tr pre hnd.2 hf1 hok hfail
    · have hf1 : k0 :: ks.filter (fun x => decide (x ∉ provided)) = pre ++ k :: post := by
        rw [List.filter_cons] at hf
        simpa [hk] using hf
      cases pre with
      | nil =>
        simp only [List.nil_append, List.cons.injEq] at hf1
        obtain ⟨hk0, _⟩ := hf1
        subst hk0
        simp only [List.append_nil] at hfail
        simp only [announceKeys, has_eq_false hk, hfail]
        simp
      | cons p0 pre1 =>
        simp only [List.cons_append, List.cons.injEq] at hf1
        obtain ⟨hk0, hrest⟩ := hf1
        subst hk0
        have hp : r.Provide (announced tr) k0 true = none := by
          have := hok [] k0 pre1 rfl
          simpa using this
        have hf2 : ks.filter (fun x => decide (x ∉ provided ++ [k0])) = pre1 ++ k :: post := by
          rw [← hrest]
          apply List.filter_congr
          intro x hx
          have hne : x ≠ k0 := fun h => hnd.1 (h ▸ hx)
          simp [hne]
        have hann : announced (tr ++ [Call.routingProvide k0 true]) = announced tr ++ [k0] := by
          rw [announced_append]
          rfl
        have hrec := ih (provided ++ [k0]) (tr ++ [Call.routingProvide k0 true]) pre1 hnd.2 hf2
          (by
            intro a x b hab
            rw [hann, List.append_assoc]
            exact hok (k0 :: a) x b (by simp [hab]))
          (by
            rw [hann, List.append_assoc]
            exact hfail)
        simp only [announceKeys, has_eq_false hk, hp, add_unseen hk, hrec]
        simp

theorem provideKeysRecLoop_none (order : List Cid → List Cid) (r : IpfsRouting)
    (d : DAGService) :
    ∀ (roots : List Cid) (provided : CidSet) (tr tr1 : List Call) (provided1 : CidSet),
      provideKeysRecLoop order r d roots provided tr = (tr1, provided1, none) →
      ∃ new : List Call, tr1 = tr ++ new ∧ provided1 = provided ++ announced new := by
  intro roots
  induction roots with
  | nil =>
    intro provided tr tr1 provided1 h
    simp only [provideKeysRecLoop, Prod.mk.injEq] at h
    exact ⟨[], by simp [h.1], by simp [h.2.1, announced]⟩
  | cons c roots ih =>
    intro provided tr tr1 provided1 h
    obtain ⟨cs, res, htr, _⟩ := enumerateChildrenAsync_spec d c
    cases res with
    | error err => simp [provideKeysRecLoop, htr] at h
    | ok kset =>
      simp only [provideKeysRecLoop, htr] at h
      rcases hk : announceKeys r (CidSet.Keys order kset) provided (tr ++ cs.map Call.getLinks)
        with ⟨tr2, provided2, _ | err⟩
      · obtain ⟨new1, h1, h2⟩ := announceKeys_none r _ _ _ _ _ hk
        rw [hk] at h
        obtain ⟨new2, h3, h4⟩ := ih provided2 tr2 tr1 provided1 h
        refine ⟨cs.map Call.getLinks ++ new1.map (fun k => Call.routingProvide k true) ++ new2,
          ?_, ?_⟩
        · rw [h3, h1]
          simp [List.append_assoc]
        · rw [h4, h2, announced_append, announced_append, announced_getLinks, announced_provide]
          simp
      · rw [hk] at h
        simp at h

theorem provideKeysRecLoop_append (order : List Cid → List Cid) (r : IpfsRouting)
    (d : DAGService) (rest : List Cid) :
    ∀ (roots : List Cid) (provided : CidSet) (tr tr1 : List Call) (provided1 : CidSet),
      provideKeysRecLoop order r d roots provided tr = (tr1, provided1, none) →
      provideKeysRecLoop order r d (roots ++ rest) provided tr
        = provideKeysRecLoop order r d rest provided1 tr1 := by
  intro roots
  induction roots with
  | nil =>
    intro provided tr tr1 provided1 h
    simp only [provideKeysRecLoop, Prod.mk.injEq] at h
    rw [List.nil_append, h.1, h.2.1]
  | cons c roots ih =>
    intro provided tr tr1 provided1 h
    rcases ht : EnumerateChildrenAsync d c NewSet with ⟨calls, err | kset⟩
    · simp [provideKeysRecLoop, ht] at h
    · simp only [provideKeysRecLoop, ht] at h
      rcases hk : announceKeys r (CidSet.Keys order kset) provided (tr ++ calls)
        with ⟨tr2, provided2, _ | err⟩
      · rw [hk] at h
        simp only [List.cons_append, provideKeysRecLoop, ht, hk]
        exact ih provided2 tr2 tr1 provided1 h
      · rw [hk] at h
        simp at h

theorem filter_not_mem_nil (ks : List Cid) :
    ks.filter (fun x => decide (x ∉ ([] : List Cid))) = ks := by
  induction ks with
  | nil => rfl
  | cons k ks ih => simp

/-- C3. `provideKeysRec` stops at the first failure and returns that error, with
no rollback. Let the roots before `c` have been handled without error, with calls
`new1`. (a) If the traversal of `c` succeeds with set `kset` and, among its keys
in enumeration order not announced for an earlier root, the announces of `pre`
succeed and the next one, of `k`, fails with `err`, then the result is `err` and
the calls made are those of the earlier roots, the child lookups of the
traversal, and the announces of `pre` and `k` in that order, none after `k`.
(b) If the traversal of `c` fails with `err` (the error of the child lookup of an
identifier reachable from `c`), the result is `err`, the only new calls are child
lookups, and the announce calls are those made for the earlier roots.
For recursive `Provide`, which passes the single resolved root: the announce
calls are the traversal keys up to and including the failing one in case (a), and
there is no announce call in case (b). -/
theorem provideKeysRec_first_failure (order : List Cid → List Cid) (r : IpfsRouting)
    (d : DAGService) (horder : ∀ l, (order l).Perm l) :
    (∀ (earlier later : List Cid) (c : Cid) (tr0 new1 : List Call),
      provideKeysRec order r d earlier tr0 = (tr0 ++ new1, none) →
      (∀ (calls : List Call) (kset : CidSet) (pre post : List Cid) (k : Cid) (err : Err),
        EnumerateChildrenAsync d c NewSet = (calls, Except.ok kset) →
        (CidSet.Keys order kset).filter (fun x => decide (x ∉ announced new1))
          = pre ++ k :: post →
        (∀ a x b, pre = a ++ x :: b →
          r.Provide (announced (tr0 ++ new1) ++ a) x true = none) →
        r.Provide (announced (tr0 ++ new1) ++ pre) k true = some err →
        provideKeysRec order r d (earlier ++ c :: later) tr0
          = (tr0 ++ new1 ++ calls ++ (pre ++ [k]).map (fun k => Call.routingProvide k true),
              some err)) ∧
      (∀ (calls : List Call) (err : Err),
        EnumerateChildrenAsync d c NewSet = (calls, Except.error err) →
        provideKeysRec order r d (earlier ++ c :: later) tr0 = (tr0 ++ new1 ++ calls, some err) ∧
        announced (tr0 ++ new1 ++ calls) = announced (tr0 ++ new1) ∧
        ∃ x, Reachable d c x ∧ d.GetLinks x = Except.error err)) ∧
    (∀ (node : Node) (path : Path) (c : Cid),
      node.Routing = some r → node.DAG = d → node.Conns ≠ [] →
      node.ResolvePath path = Except.ok c → node.BlockstoreHas c = Except.ok true →
      (∀ (calls : List Call) (kset : CidSet) (pre post : List Cid) (k : Cid) (err : Err),
        EnumerateChildrenAsync d c NewSet = (calls, Except.ok kset) →
        CidSet.Keys order kset = pre ++ k :: post →
        (∀ a x b, pre = a ++ x :: b → r.Provide a x true = none) →
        r.Provide pre k true = some err →
        (Provide order node path (Except.ok { Recursive := true })).2 = some err ∧
        announced (Provide order node path (Except.ok { Recursive := true })).1
          = pre ++ [k]) ∧
      (∀ (calls : List Call) (err : Err),
        EnumerateChildrenAsync d c NewSet = (calls, Except.error err) →
        (Provide order node path (Except.ok { Recursive := true })).2 = some err ∧
        announced (Provide order node path (Except.ok { Recursive := true })).1 = [])) := by
  have hmain : ∀ (earlier later : List Cid) (c : Cid) (tr0 new1 : List Call),
      provideKeysRec order r d earlier tr0 = (tr0 ++ new1, none) →
      (∀ (calls : List Call) (kset : CidSet) (pre post : List Cid) (k : Cid) (err : Err),
        EnumerateChildrenAsync d c NewSet = (calls, Except.ok kset) →
        (CidSet.Keys order kset).filter (fun x => decide (x ∉ announced new1))
          = pre ++ k :: post →
        (∀ a x b, pre = a ++ x :: b →
          r.Provide (announced (tr0 ++ new1) ++ a) x true = none) →
        r.Provide (announced (tr0 ++ new1) ++ pre) k true = some err →
        provideKeysRec order r d (earlier ++ c :: later) tr0
          = (tr0 ++ new1 ++ calls ++ (pre ++ [k]).map (fun k => Call.routingProvide k true),
              some err)) ∧
      (∀ (calls : List Call) (err : Err),
        EnumerateChildrenAsync d c NewSet = (calls, Except.error err) →
        provideKeysRec order r d (earlier ++ c :: later) tr0 = (tr0 ++ new1 ++ calls, some err) ∧
        announced (tr0 ++ new1 ++ calls) = announced (tr0 ++ new1) ∧
        ∃ x, Reachable d c x ∧ d.GetLinks x = Except.error err) := by
    intro earlier later c tr0 new1 hearlier
    rcases hloop : provideKeysRecLoop order r d earlier NewSet tr0 with ⟨tr1, provided1, e1⟩
    simp only [provideKeysRec, hloop, Prod.mk.injEq] at hearlier
    obtain ⟨htr1, he1⟩ := hearlier
    subst he1
    subst htr1
    obtain ⟨new, hnew, hprov⟩ := provideKeysRecLoop_none order r d earlier NewSet tr0 _ _ hloop
    have hnew1 : new = new1 := (List.append_cancel_left hnew).symm
    subst hnew1
    have hprov1 : provided1 = announced new := by
      rw [hprov]
      rfl
    subst hprov1
    have happ := provideKeysRecLoop_append order r d (c :: later) earlier NewSet tr0 _ _ hloop
    obtain ⟨cs, res, htr, hpost⟩ := enumerateChildrenAsync_spec d c
    constructor
    · intro calls kset pre post k err henum hkeys hok hfail
      have hres : res = Except.ok kset := by
        rw [htr] at henum
        exact (Prod.mk.inj henum).2
      subst hres
      have hnd : (CidSet.Keys order kset).Nodup := (horder kset).nodup_iff.mpr hpost.1
      have hrun := announceKeys_fail r k post err (CidSet.Keys order kset) (announced new)
        (tr0 ++ new ++ calls) pre hnd hkeys
        (by
          intro a x b hab
          have hc : announced (tr0 ++ new ++ calls) = announced (tr0 ++ new) := by
            rw [htr] at henum
            rw [← (Prod.mk.inj henum).1, announced_append (tr0 ++ new), announced_getLinks]
            simp
          rw [hc]
          exact hok a x b hab)
        (by
          have hc : announced (tr0 ++ new ++ calls) = announced (tr0 ++ new) := by
            rw [htr] at henum
            rw [← (Prod.mk.inj henum).1, announced_append (tr0 ++ new), announced_getLinks]
            simp
          rw [hc]
          exact hfail)
      simp only [provideKeysRec, happ, provideKeysRecLoop, henum, hrun]
    · intro calls err henum
      have hres : res = Except.error err := by
        rw [htr] at henum
        exact (Prod.mk.inj henum).2
      subst hres
      refine ⟨?_, ?_, hpost⟩
      · simp only [provideKeysRec, happ, provideKeysRecLoop, henum]
      · rw [htr] at henum
        rw [← (Prod.mk.inj henum).1, announced_append (tr0 ++ new), announced_getLinks]
        simp
  refine ⟨hmain, ?_⟩
  intro node path c hr hd hconns hres hhas
  have hlen : node.Conns.length ≠ 0 := fun h => hconns (List.length_eq_zero.mp h)
  have hprov : Provide order node path (Except.ok { Recursive := true })
      = provideKeysRec order r d [c]
          [Call.conns, Call.resolvePath path, Call.blockstoreHas c] := by
    simp only [Provide, hr, hd, hres, hhas, if_neg hlen]
    simp
  have hbase := hmain [] [] c [Call.conns, Call.resolvePath path, Call.blockstoreHas c] []
    (by simp [provideKeysRec, provideKeysRecLoop])
  simp only [List.nil_append, List.append_nil] at hbase
  constructor
  · intro calls kset pre post k err henum hkeys hok hfail
    have h := hbase.1 calls kset pre post k err henum
      (by rw [show announced [] = ([] : List Cid) from rfl, filter_not_mem_nil]; exact hkeys)
      (fun a x b hab => by
        rw [show announced [Call.conns, Call.resolvePath path, Call.blockstoreHas c]
          = ([] : List Cid) from rfl, List.nil_append]
        exact hok a x b hab)
      (by
        rw [show announced [Call.conns, Call.resolvePath path, Call.blockstoreHas c]
          = ([] : List Cid) from rfl, List.nil_append]
        exact hfail)
    rw [hprov, h]
    refine ⟨rfl, ?_⟩
    obtain ⟨cs, res, htr, _⟩ := enumerateChildrenAsync_spec d c
    rw [htr] at henum
    simp only
    rw [← (Prod.mk.inj henum).1, announced_append, announced_append, announced_getLinks,
      announced_provide]
    rfl
  · intro calls err henum
    have h := hbase.2 calls err henum
    rw [hprov, h.1]
    exact ⟨rfl, h.2.1⟩

/-- C3 on the diamond: (a) with an announce that fails for identifier 2, the
announces are 0, 1, 2 and nothing after; (b) with a failing child lookup under
the second root, only the first root's identifier is announced. -/
theorem provideKeysRec_first_failure_witness :
    provideKeysRec id lossyDHT diamond ([] ++ 0 :: []) []
      = ([] ++ [] ++ [Call.getLinks 0, Call.getLinks 1, Call.getLinks 2, Call.getLinks 3,
            Call.getLinks 3]
          ++ ([0, 1] ++ [2]).map (fun k => Call.routingProvide k true), some "announce failed") ∧
    (provideKeysRec id okRouting brokenDiamond ([5] ++ 0 :: []) []
      = ([] ++ [Call.getLinks 5, Call.routingProvide 5 true]
          ++ [Call.getLinks 0, Call.getLinks 1, Call.getLinks 2, Call.getLinks 3],
          some "fetch failed") ∧
      announced ([] ++ [Call.getLinks 5, Call.routingProvide 5 true]
          ++ [Call.getLinks 0, Call.getLinks 1, Call.getLinks 2, Call.getLinks 3])
        = announced ([] ++ [Call.getLinks 5, Call.routingProvide 5 true]) ∧
      ∃ x, Reachable brokenDiamond 0 x ∧ brokenDiamond.GetLinks x = Except.error "fetch failed") :=
  ⟨((provideKeysRec_first_failure id lossyDHT diamond (fun l => List.Perm.refl l)).1
      [] [] 0 [] [] rfl).1
      [Call.getLinks 0, Call.getLinks 1, Call.getLinks 2, Call.getLinks 3, Call.getLinks 3]
      [0, 1, 2, 3] [0, 1] [3] 2 "announce failed" rfl rfl
      (fun a x b hab => by
        have hx : x ∈ [0, 1] := by
          rw [hab]
          simp
        have hne : x ≠ 2 := by
          intro h
          rw [h] at hx
          simp at hx
        simp [lossyDHT, hne])
      rfl,
   ((provideKeysRec_first_failure id okRouting brokenDiamond (fun l => List.Perm.refl l)).1
      [5] [] 0 [] [Call.getLinks 5, Call.routingProvide 5 true] rfl).2
      [Call.getLinks 0, Call.getLinks 1, Call.getLinks 2, Call.getLinks 3] "fetch failed" rfl⟩

end GoIpfs
